import Mathlib

/-!
Shallow embedding of the definition-graph engine of
`go-types-to-jsonschema` (definition_pruner.go, flattener.go, embed.go,
utils.go, types.go) together with proofs of the frozen claims about it.

Go maps `map[string]*Definition` are modelled as association lists
`List (String × Definition)` (first binding wins on lookup, mirroring
map key uniqueness); `nil` pointers are modelled as `Option Definition`
at the positions where the Go code checks or dereferences them.
Go panics are modelled as `Except` errors.  The two recursions that the
Go code does not bound (the allOf flattener and the reference embedder)
receive an explicit fuel parameter; running out of fuel is a distinct
error value so that genuine divergence is observable as "every fuel
amount is exhausted".
-/

/-- Mirror of the Go `Definition` struct (types.go), restricted to the
fields that the four graph algorithms read or write: `Ref`, `Type`,
`Description`, `Required`, `Properties`, `Definitions`, `AllOf`,
`AnyOf`, `OneOf`, `AdditionalItems`, `Items`, `Not`, `Media`,
`AdditionalProperties`.  The remaining fields (numeric bounds, enum,
title, …) are opaque payload never consulted by the code under
verification. -/
inductive Definition : Type where
  | mk
    (ref : String)
    (type : String)
    (description : String)
    (required : List String)
    (properties : List (String × Definition))
    (definitions : List (String × Definition))
    (allOf : List Definition)
    (anyOf : List Definition)
    (oneOf : List Definition)
    (additionalItems : Option Definition)
    (items : Option Definition)
    (not : Option Definition)
    (media : Option Definition)
    (additionalProperties : Option Definition)
  deriving Inhabited

def Definition.ref : Definition → String
  | .mk r _ _ _ _ _ _ _ _ _ _ _ _ _ => r

def Definition.type : Definition → String
  | .mk _ t _ _ _ _ _ _ _ _ _ _ _ _ => t

def Definition.description : Definition → String
  | .mk _ _ d _ _ _ _ _ _ _ _ _ _ _ => d

def Definition.required : Definition → List String
  | .mk _ _ _ r _ _ _ _ _ _ _ _ _ _ => r

def Definition.properties : Definition → List (String × Definition)
  | .mk _ _ _ _ p _ _ _ _ _ _ _ _ _ => p

def Definition.definitions : Definition → List (String × Definition)
  | .mk _ _ _ _ _ d _ _ _ _ _ _ _ _ => d

def Definition.allOf : Definition → List Definition
  | .mk _ _ _ _ _ _ a _ _ _ _ _ _ _ => a

def Definition.anyOf : Definition → List Definition
  | .mk _ _ _ _ _ _ _ a _ _ _ _ _ _ => a

def Definition.oneOf : Definition → List Definition
  | .mk _ _ _ _ _ _ _ _ o _ _ _ _ _ => o

def Definition.additionalItems : Definition → Option Definition
  | .mk _ _ _ _ _ _ _ _ _ ai _ _ _ _ => ai

def Definition.items : Definition → Option Definition
  | .mk _ _ _ _ _ _ _ _ _ _ i _ _ _ => i

def Definition.notDef : Definition → Option Definition
  | .mk _ _ _ _ _ _ _ _ _ _ _ n _ _ => n

def Definition.media : Definition → Option Definition
  | .mk _ _ _ _ _ _ _ _ _ _ _ _ m _ => m

def Definition.additionalProperties : Definition → Option Definition
  | .mk _ _ _ _ _ _ _ _ _ _ _ _ _ ap => ap

/-- The all-zero `Definition` (Go's `new(Definition)`). -/
def emptyDefinition : Definition :=
  .mk "" "" "" [] [] [] [] [] [] none none none none none

/-- A `Definitions` map (`map[string]*Definition`) as an association
list; the first binding of a key is the visible one. -/
abbrev Definitions := List (String × Definition)

/-- Go map lookup `defs[name]` returning `none` for a missing key. -/
def lookupDef : Definitions → String → Option Definition
  | [], _ => none
  | (k, v) :: rest, name => if k = name then some v else lookupDef rest name

/-- The keys of the map, in binding order. -/
def keysOf (defs : Definitions) : List String := defs.map Prod.fst

/-- `strings.Split(s, "/")` on the character list of a string: cut at
every `/`, keeping empty components, never returning an empty list
(mirrors Go's behaviour for a single-character separator). -/
def splitOnSlash : List Char → List (List Char)
  | [] => [[]]
  | c :: rest =>
    match splitOnSlash rest with
    | [] => if c = '/' then [[], []] else [[c]]
    | g :: gs => if c = '/' then [] :: g :: gs else (c :: g) :: gs

/-- Mirror of `getNameFromURL` (utils.go): split the URL on `/` and
take the last component (`slice[len(slice)-1]`). -/
def getNameFromURL (url : String) : String :=
  match (splitOnSlash url.data).getLast? with
  | some s => String.mk s
  | none => ""

mutual
/-- Mirror of `processDefinition` (definition_pruner.go): collect the
bare names of every reference appearing in the node's structural
positions, in the source's field order (ref, definitions, properties,
allOf, anyOf, oneOf, additionalItems, items, not, media).  A `nil`
pointer contributes nothing.  `additionalProperties` is not traversed,
exactly as in the source. -/
def processDefinition : Option Definition → List String
  | none => []
  | some (.mk ref _ _ _ props defs allOf anyOf oneOf addItems items nt media _) =>
    (if ref = "" then [] else [getNameFromURL ref])
      ++ processDefinitionMap defs
      ++ processDefinitionMap props
      ++ processDefinitionArray allOf
      ++ processDefinitionArray anyOf
      ++ processDefinitionArray oneOf
      ++ processDefinition addItems
      ++ processDefinition items
      ++ processDefinition nt
      ++ processDefinition media
  termination_by o => sizeOf o
  decreasing_by all_goals (simp_wf <;> omega)

/-- Mirror of `processDefinitionMap` (definition_pruner.go); the Go map
iteration is modelled in binding order. -/
def processDefinitionMap : List (String × Definition) → List String
  | [] => []
  | (_, d) :: rest => processDefinition (some d) ++ processDefinitionMap rest
  termination_by l => sizeOf l + 1
  decreasing_by all_goals (simp_wf <;> omega)

/-- Mirror of `processDefinitionArray` (definition_pruner.go). -/
def processDefinitionArray : List Definition → List String
  | [] => []
  | d :: rest => processDefinition (some d) ++ processDefinitionArray rest
  termination_by l => sizeOf l + 1
  decreasing_by all_goals (simp_wf <;> omega)
end

/-- Number of keys of `defs` not yet in `visited`; the termination
measure of the pruner's BFS loop. -/
def unvisitedCount (defs : Definitions) (visited : List String) : Nat :=
  ((keysOf defs).filter (fun k => !(visited.contains k))).length

inductive PruneErr : Type where
  | unknownType (name : String)
  deriving DecidableEq

theorem length_filter_le_of_imp {α : Type} (l : List α) (p q : α → Bool)
    (himp : ∀ x, q x = true → p x = true) :
    (l.filter q).length ≤ (l.filter p).length := by
  induction l with
  | nil => simp
  | cons h t ih =>
    by_cases hq : q h = true
    · have hp : p h = true := himp h hq
      simp only [List.filter_cons, hq, hp, if_true, List.length_cons]
      omega
    · have hq' : q h = false := by simpa using hq
      by_cases hp : p h = true
      · simp only [List.filter_cons, hq', hp, if_true]
        simp only [Bool.false_eq_true, if_false, List.length_cons]
        omega
      · have hp' : p h = false := by simpa using hp
        simp only [List.filter_cons, hq', hp', Bool.false_eq_true, if_false]
        exact ih

theorem length_filter_lt_of_mem {α : Type} (l : List α) (p q : α → Bool)
    (himp : ∀ x, q x = true → p x = true)
    (a : α) (ha : a ∈ l) (hpa : p a = true) (hqa : q a = false) :
    (l.filter q).length < (l.filter p).length := by
  induction l with
  | nil => cases ha
  | cons h t ih =>
    rcases List.mem_cons.mp ha with rfl | hat
    · simp only [List.filter_cons, hqa, hpa, if_true, Bool.false_eq_true, if_false,
        List.length_cons]
      have := length_filter_le_of_imp t p q himp
      omega
    · by_cases hq : q h = true
      · have hp : p h = true := himp h hq
        simp only [List.filter_cons, hq, hp, if_true, List.length_cons]
        have := ih hat
        omega
      · have hq' : q h = false := by simpa using hq
        by_cases hp : p h = true
        · simp only [List.filter_cons, hq', hp, if_true, Bool.false_eq_true, if_false,
            List.length_cons]
          have := ih hat
          omega
        · have hp' : p h = false := by simpa using hp
          simp only [List.filter_cons, hq', hp', Bool.false_eq_true, if_false]
          exact ih hat

theorem mem_keysOf_of_lookup {defs : Definitions} {name : String} {d : Definition}
    (h : lookupDef defs name = some d) : name ∈ keysOf defs := by
  induction defs with
  | nil => simp [lookupDef] at h
  | cons kv rest ih =>
    obtain ⟨k, v⟩ := kv
    by_cases hk : k = name
    · simp [keysOf, hk]
    · rw [lookupDef, if_neg hk] at h
      have := ih h
      simp only [keysOf, List.map_cons, List.mem_cons] at this ⊢
      exact Or.inr this

theorem unvisitedCount_lt {defs : Definitions} {visited : List String}
    {cur : String} {d : Definition}
    (hlook : lookupDef defs cur = some d) (hvis : ¬ visited.contains cur = true) :
    unvisitedCount defs (cur :: visited) < unvisitedCount defs visited := by
  refine length_filter_lt_of_mem _ _ _ ?himp cur (mem_keysOf_of_lookup hlook) ?hpa ?hqa
  case himp =>
    intro x hx
    simp only [List.contains_cons, Bool.not_eq_true', Bool.or_eq_false_iff] at hx
    rw [hx.2]
    rfl
  case hpa => simpa using hvis
  case hqa => simp [List.contains_cons]

/-- The BFS loop inside `Prune` (definition_pruner.go): pop the head of
the queue; skip it if already visited; if it has no entry in the map,
skip it in tolerant mode or abort with the unknown-type panic in strict
mode; otherwise mark it visited and enqueue every name collected by
`processDefinition` from its node. -/
def pruneLoop (defs : Definitions) (ignoreUnknownTypes : Bool)
    (visited : List String) (queue : List String) : Except PruneErr (List String) :=
  match queue with
  | [] => .ok visited
  | cur :: rest =>
    if h1 : visited.contains cur then
      pruneLoop defs ignoreUnknownTypes visited rest
    else
      match h2 : lookupDef defs cur with
      | none =>
        if ignoreUnknownTypes then pruneLoop defs ignoreUnknownTypes visited rest
        else .error (.unknownType cur)
      | some d =>
        pruneLoop defs ignoreUnknownTypes (cur :: visited)
          (rest ++ processDefinition (some d))
  termination_by (unvisitedCount defs visited, queue.length)
  decreasing_by
  · apply Prod.Lex.right
    simp
  · apply Prod.Lex.right
    simp
  · apply Prod.Lex.left
    exact unvisitedCount_lt h2 h1

/-- Mirror of `DefinitionPruner.Prune` (definition_pruner.go): seed the
queue with the starting type names, run the BFS, return the visited-name
set (as the list of names in visit order, most recent first). -/
def Prune (defs : Definitions) (startingTypes : List String)
    (ignoreUnknownTypes : Bool) : Except PruneErr (List String) :=
  pruneLoop defs ignoreUnknownTypes [] startingTypes

/-! ## Composition flattener (flattener.go) -/

/-- Outcomes by which `recursiveFlatten` can abort: `cycleDetected` is
the deliberate `panic("Cycle detected in definitions")`; `nilDeref` is
the Go runtime fault raised when `schema.Definitions[nameOfRef]` is
`nil` and the callee reads `definition.AllOf`; `outOfFuel` is the
artifact of bounding the unbounded Go recursion by fuel. -/
inductive FlattenErr : Type where
  | cycleDetected
  | nilDeref
  | outOfFuel
  deriving DecidableEq

/-- Write key `k` to value `v` in an association list, replacing the
first existing binding of `k` or appending a new one (Go map
assignment `m[k] = v`). -/
def setKey : List (String × Definition) → String → Definition → List (String × Definition)
  | [], k, v => [(k, v)]
  | (k', v') :: rest, k, v =>
    if k' = k then (k, v) :: rest else (k', v') :: setKey rest k v

/-- Mirror of `mergeDefinitions` (flattener.go): copy every property of
`rhsDef` into `lhsDef` (overwriting on key collision) and overwrite the
description with `rhsDef`'s.  No other field is transferred. -/
def mergeDefinitions (lhsDef rhsDef : Definition) : Definition :=
  match lhsDef with
  | .mk ref ty _ req props defsm a1 a2 a3 ai it nt me ap =>
    .mk ref ty rhsDef.description req
      (rhsDef.properties.foldl (fun acc kv => setKey acc kv.1 kv.2) props)
      defsm a1 a2 a3 ai it nt me ap

/-- The member loop of `recursiveFlatten`, abstracted over the
resolution of a reference member: a literal member (empty `ref`) is
merged as is; a reference member is resolved by `flatten` (the
recursive call), any abort cutting the loop short exactly as a Go
panic would. -/
def foldFlattenMembers (flatten : Definition → Except FlattenErr Definition) :
    List Definition → Definition → Except FlattenErr Definition
  | [], agg => .ok agg
  | m :: rest, agg =>
    if m.ref = "" then foldFlattenMembers flatten rest (mergeDefinitions agg m)
    else
      match flatten m with
      | .error e => .error e
      | .ok nd => foldFlattenMembers flatten rest (mergeDefinitions agg nd)

/-- Mirror of `recursiveFlatten` (flattener.go).  The Go `visited` map
is passed by pointer, marked on entry and unmarked on exit; since every
completed recursive call restores it, its content at any call is
exactly the chain of ancestor names, which the immutable
`defName :: visited` threading reproduces.  A `none` definition models
the `nil` pointer the Go code dereferences on its first line.  The
member loop (`for _, allOfDef := range definition.AllOf`) resolves a
reference member by a recursive call on the referred node and takes a
literal member as is, merging each into the running aggregate that
starts from `new(Definition)`; a panic anywhere aborts the whole loop.
Fuel is consumed once per descent into the member list. -/
def recursiveFlatten (fuel : Nat) (defs : Definitions) (od : Option Definition)
    (defName : String) (visited : List String) : Except FlattenErr Definition :=
  match od with
  | none => .error .nilDeref
  | some d =>
    if d.allOf.isEmpty then .ok d
    else if visited.contains defName then .error .cycleDetected
    else
      match fuel with
      | 0 => .error .outOfFuel
      | Nat.succ f =>
        foldFlattenMembers
          (fun m => recursiveFlatten f defs
            (lookupDef defs (getNameFromURL m.ref)) (getNameFromURL m.ref)
            (defName :: visited))
          d.allOf emptyDefinition

/-- One top-level flatten invocation as `flattenAllOf` performs it for
an entry `name` of the graph: a fresh (empty) visiting set. -/
def flattenFrom (fuel : Nat) (defs : Definitions) (name : String) :
    Except FlattenErr Definition :=
  recursiveFlatten fuel defs (lookupDef defs name) name []

/-- Mirror of `flattenAllOf` (flattener.go): flatten every top-level
definition with its own fresh visiting set, writing each result back
into the map (later iterations see earlier results). -/
def flattenAllOf (fuel : Nat) (defs : Definitions) : Except FlattenErr Definitions :=
  (keysOf defs).foldlM
    (fun acc name => do
      let d ← recursiveFlatten fuel acc (lookupDef acc name) name []
      pure (setKey acc name d))
    defs

/-! ## Graph merger (utils.go) -/

/-- Mirror of `mergeDefs` (utils.go): fold the right-hand map into the
left-hand one; a key already present is reported (a print, no abort)
and skipped, so the first-seen binding wins.  The function is total:
no failure path exists. -/
def mergeDefs : Definitions → Definitions → Definitions
  | lhs, [] => lhs
  | lhs, (k, v) :: rest =>
    if (lookupDef lhs k).isSome then mergeDefs lhs rest
    else mergeDefs (lhs ++ [(k, v)]) rest

/-! ## Reference embedder (embed.go) -/

/-- Outcomes of `embedDefinition`: `missingDefinition` is the
`log.Panicf("can't find the definition of %q", refName)`; `outOfFuel`
bounds the unguarded recursion, whose divergence on reference cycles is
itself one of the claims. -/
inductive EmbedErr : Type where
  | missingDefinition (name : String)
  | outOfFuel
  deriving DecidableEq

/-- Mirror of `strings.TrimPrefix(def.Ref, defPrefix)` with
`defPrefix = "#/definitions/"`. -/
def trimDefLink (s : String) : String :=
  if ("#/definitions/".data).isPrefixOf s.data then
    String.mk (s.data.drop "#/definitions/".length)
  else s

/-- Mirror of `embedDefinition` (embed.go, `Definitions` variant): if
the node has a `ref`, resolve it (aborting when absent), copy the
target's `properties` and `type` onto the node and clear the `ref`;
then recurse into `definitions`, `properties`, `anyOf`, `oneOf`,
`additionalItems`, `items`, `not` and `media` — deliberately not
`allOf`, and never `additionalProperties`.  The walk keeps no visiting
set; one unit of fuel is spent per node visit, so divergence shows up
as exhaustion of every fuel amount. -/
def embedDefinition : Nat → Definition → Definitions → Except EmbedErr Definition
  | 0, _, _ => .error .outOfFuel
  | Nat.succ f, d, refs => do
    let d1 ←
      if d.ref = "" then pure d
      else
        match lookupDef refs (trimDefLink d.ref) with
        | none => Except.error (.missingDefinition (trimDefLink d.ref))
        | some r =>
          match d with
          | .mk _ _ desc req _ defsm a1 a2 a3 ai it nt me ap =>
            pure (.mk "" r.type desc req r.properties defsm a1 a2 a3 ai it nt me ap)
    match d1 with
    | .mk ref ty desc req props defsm a1 a2 a3 ai it nt me ap => do
      let embedOpt : Option Definition → Except EmbedErr (Option Definition) := fun o =>
        match o with
        | none => pure none
        | some x => do pure (some (← embedDefinition f x refs))
      let defsm' ← defsm.mapM (fun kv => do pure (kv.1, ← embedDefinition f kv.2 refs))
      let props' ← props.mapM (fun kv => do pure (kv.1, ← embedDefinition f kv.2 refs))
      let a2' ← a2.mapM (fun x => embedDefinition f x refs)
      let a3' ← a3.mapM (fun x => embedDefinition f x refs)
      let ai' ← embedOpt ai
      let it' ← embedOpt it
      let nt' ← embedOpt nt
      let me' ← embedOpt me
      pure (.mk ref ty desc req props' defsm' a1 a2' a3' ai' it' nt' me' ap)

/-- Mirror of `embedSchema` (embed.go): run `embedDefinition` on the
node of each starting type, writing the result back into the map (Go
mutates the shared nodes in place); a starting name absent from the map
is a no-op, matching `embedDefinition(nil, …)`. -/
def embedSchema (fuel : Nat) (defs : Definitions) (startingTypes : List String) :
    Except EmbedErr Definitions :=
  startingTypes.foldlM
    (fun acc name =>
      match lookupDef acc name with
      | none => pure acc
      | some d => do
        let d' ← embedDefinition fuel d acc
        pure (setKey acc name d'))
    defs

/-- The embedded-output step of the orchestrator (`Options.Generate`):
after `embedSchema`, keep only the entry-type definitions
(`newDefs[name] = schema.Definitions[name]` for the starting names). -/
def embedAndRestrict (fuel : Nat) (defs : Definitions) (startingTypes : List String) :
    Except EmbedErr Definitions := do
  let defs' ← embedSchema fuel defs startingTypes
  pure (startingTypes.filterMap (fun n => (lookupDef defs' n).map (fun d => (n, d))))

/-! ## Reachability in the name graph -/

/-- Reachability as realised by the pruner's BFS: a name is reachable
when it has a node in the map and either belongs to the entry set or is
collected by `processDefinition` from the node of a reachable name. -/
inductive ReachableName (defs : Definitions) (S : List String) : String → Prop where
  | start {n : String} {d : Definition}
      (hn : n ∈ S) (hd : lookupDef defs n = some d) : ReachableName defs S n
  | step {a b : String} {da db : Definition}
      (ha : ReachableName defs S a) (hda : lookupDef defs a = some da)
      (hb : b ∈ processDefinition (some da)) (hdb : lookupDef defs b = some db) :
      ReachableName defs S b

mutual
/-- The edge collector described by the claim's words: references in
`ref`, `properties`, `items`, `additionalItems`, `not`, `media`,
`allOf`, `anyOf`, `oneOf` — and, unlike `processDefinition`, not in the
nested `definitions` map.  Kept for comparison with the source's
collector. -/
def claimListedRefs : Option Definition → List String
  | none => []
  | some (.mk ref _ _ _ props _ allOf anyOf oneOf addItems items nt media _) =>
    (if ref = "" then [] else [getNameFromURL ref])
      ++ claimListedRefsMap props
      ++ claimListedRefsArray allOf
      ++ claimListedRefsArray anyOf
      ++ claimListedRefsArray oneOf
      ++ claimListedRefs addItems
      ++ claimListedRefs items
      ++ claimListedRefs nt
      ++ claimListedRefs media
  termination_by o => sizeOf o
  decreasing_by all_goals (simp_wf <;> omega)

def claimListedRefsMap : List (String × Definition) → List String
  | [] => []
  | (_, d) :: rest => claimListedRefs (some d) ++ claimListedRefsMap rest
  termination_by l => sizeOf l + 1
  decreasing_by all_goals (simp_wf <;> omega)

def claimListedRefsArray : List Definition → List String
  | [] => []
  | d :: rest => claimListedRefs (some d) ++ claimListedRefsArray rest
  termination_by l => sizeOf l + 1
  decreasing_by all_goals (simp_wf <;> omega)
end

/-- Reachability along only the edges enumerated by the claim
(no `definitions` edges). -/
inductive ClaimReachable (defs : Definitions) (S : List String) : String → Prop where
  | start {n : String} {d : Definition}
      (hn : n ∈ S) (hd : lookupDef defs n = some d) : ClaimReachable defs S n
  | step {a b : String} {da db : Definition}
      (ha : ClaimReachable defs S a) (hda : lookupDef defs a = some da)
      (hb : b ∈ claimListedRefs (some da)) (hdb : lookupDef defs b = some db) :
      ClaimReachable defs S b

/-- Every `allOf` member that is a reference resolves inside the graph
(the proviso under which the flattener can never hit its nil
dereference). -/
def allOfRefsResolve (defs : Definitions) : Prop :=
  ∀ kv ∈ defs, ∀ m ∈ kv.2.allOf,
    m.ref ≠ "" → (lookupDef defs (getNameFromURL m.ref)).isSome = true

/-- Replace only the `additionalProperties` child of a node. -/
def Definition.withAdditionalProperties : Definition → Option Definition → Definition
  | .mk ref ty desc req props defsm a1 a2 a3 ai it nt me _, ap =>
    .mk ref ty desc req props defsm a1 a2 a3 ai it nt me ap

/-! ## Concrete graphs used by individual claims -/

/-- A bare reference node (`&Definition{Ref: url}`). -/
def refDefinition (url : String) : Definition :=
  .mk url "" "" [] [] [] [] [] [] none none none none none

/-- A bare typed node (`&Definition{Type: ty}`). -/
def typedDefinition (ty : String) : Definition :=
  .mk "" ty "" [] [] [] [] [] [] none none none none none

/-- A node whose only content is a nested `definitions` map holding a
reference to `B`. -/
def nestedDefsNode : Definition :=
  .mk "" "" "" [] [] [("X", refDefinition "#/definitions/B")] [] [] [] none none none none none

/-- Graph in which `B` is referenced only from inside `A`'s nested
`definitions` map. -/
def nestedDefsGraph : Definitions :=
  [("A", nestedDefsNode), ("B", typedDefinition "object")]

/-- `Person` as in the round-trip scenario: a required string `name`
and an `address` referencing `Address`. -/
def personDefinition : Definition :=
  .mk "" "" "" ["name"]
    [("name", typedDefinition "string"), ("address", refDefinition "#/definitions/Address")]
    [] [] [] [] none none none none none

/-- The empty-object `Address`. -/
def addressDefinition : Definition := typedDefinition "object"

/-- Round-trip graph: `Person` plus `Address`. -/
def personGraph : Definitions :=
  [("Person", personDefinition), ("Address", addressDefinition)]

/-- The same graph with `Address` absent. -/
def personDanglingGraph : Definitions := [("Person", personDefinition)]

/-- The `Person` node after embedding: `address` carries `Address`'s
shape (`type: object`, no properties) and an empty `ref`. -/
def embeddedPersonDefinition : Definition :=
  .mk "" "" "" ["name"]
    [("name", typedDefinition "string"), ("address", typedDefinition "object")]
    [] [] [] [] none none none none none

/-- A pure `allOf` two-cycle: `A` allOf-refs `B`, `B` allOf-refs `A`. -/
def cyclicPairGraph : Definitions :=
  [("A", .mk "" "" "" [] [] [] [refDefinition "#/definitions/B"] [] [] none none none none none),
   ("B", .mk "" "" "" [] [] [] [refDefinition "#/definitions/A"] [] [] none none none none none)]

/-- The same two-cycle, but `A`'s member list hits an unresolvable
reference before the cycle: `A` allOf = `[ref Missing, ref B]`,
`B` allOf = `[ref A]`. -/
def danglingCycleGraph : Definitions :=
  [("A", .mk "" "" "" [] [] []
      [refDefinition "#/definitions/Missing", refDefinition "#/definitions/B"]
      [] [] none none none none none),
   ("B", .mk "" "" "" [] [] [] [refDefinition "#/definitions/A"] [] [] none none none none none)]

/-- A single node whose lone `allOf` member references an absent name. -/
def danglingAllOfGraph : Definitions :=
  [("A", .mk "" "" "" [] [] [] [refDefinition "#/definitions/Missing"] [] []
      none none none none none)]

/-- The merge-order scenario: `X` has `p : string`; `Y` has
`p : number` and description `Y-desc`; `N`'s `allOf` is `[X, Y]`,
with both members literal. -/
def memberX : Definition :=
  .mk "" "" "" [] [("p", typedDefinition "string")] [] [] [] [] none none none none none

def memberY : Definition :=
  .mk "" "" "Y-desc" [] [("p", typedDefinition "number")] [] [] [] [] none none none none none

def mergeOrderGraph : Definitions :=
  [("N", .mk "" "" "" [] [] [] [memberX, memberY] [] [] none none none none none)]

/-- Two nodes whose `properties` reference each other, with no `allOf`
involved: the embedder's unterminating input. -/
def mutualRefGraph : Definitions :=
  [("A", .mk "" "" "" [] [("x", refDefinition "#/definitions/B")] [] [] [] []
      none none none none none),
   ("B", .mk "" "" "" [] [("y", refDefinition "#/definitions/A")] [] [] [] []
      none none none none none)]

/-- A map-valued field as the extraction step produces it: an `object`
node whose `additionalProperties` child references `B`; `B` is in the
graph but referenced nowhere else. -/
def addPropsOnlyGraph : Definitions :=
  [("A", .mk "" "" "" []
      [("m", .mk "" "object" "" [] [] [] [] [] [] none none none none
          (some (refDefinition "#/definitions/B")))]
      [] [] [] [] none none none none none),
   ("B", typedDefinition "object")]

/-! ## Theorems -/

theorem reachable_lookup {defs : Definitions} {S : List String} {n : String}
    (h : ReachableName defs S n) : ∃ d, lookupDef defs n = some d := by
  cases h with
  | start hn hd => exact ⟨_, hd⟩
  | step ha hda hb hdb => exact ⟨_, hdb⟩

theorem reachable_mem_of_closed {defs : Definitions} {S : List String}
    {visited : List String}
    (hS : ∀ n ∈ S, (∃ d, lookupDef defs n = some d) → n ∈ visited)
    (hstep : ∀ a ∈ visited, ∀ da, lookupDef defs a = some da →
      ∀ b ∈ processDefinition (some da), (∃ db, lookupDef defs b = some db) →
        b ∈ visited)
    {n : String} (h : ReachableName defs S n) : n ∈ visited := by
  induction h with
  | start hn hd => exact hS _ hn ⟨_, hd⟩
  | step ha hda hb hdb ih => exact hstep _ ih _ hda _ hb ⟨_, hdb⟩

theorem pruneLoop_tolerant_spec (defs : Definitions) (S : List String) :
    ∀ visited queue,
      (∀ n ∈ visited, ReachableName defs S n) →
      (∀ n ∈ queue, n ∈ S ∨ ∃ a da, a ∈ visited ∧ lookupDef defs a = some da ∧
          n ∈ processDefinition (some da)) →
      (∀ n ∈ S, (∃ d, lookupDef defs n = some d) → n ∈ visited ∨ n ∈ queue) →
      (∀ a ∈ visited, ∀ da, lookupDef defs a = some da →
        ∀ b ∈ processDefinition (some da), (∃ db, lookupDef defs b = some db) →
          b ∈ visited ∨ b ∈ queue) →
      ∃ V, pruneLoop defs true visited queue = .ok V ∧
        ∀ n, n ∈ V ↔ ReachableName defs S n := by
  intro visited queue
  induction visited, queue using pruneLoop.induct defs true with
  | case1 visited =>
    intro h1 _ h3 h4
    refine ⟨visited, by simp [pruneLoop], fun n => ⟨fun hn => h1 n hn, fun hr => ?_⟩⟩
    exact reachable_mem_of_closed
      (fun n hn hd => (h3 n hn hd).resolve_right (by simp))
      (fun a ha da hda b hb hdb => (h4 a ha da hda b hb hdb).resolve_right (by simp))
      hr
  | case2 visited cur rest hcont ih =>
    intro h1 h2 h3 h4
    have hcur : cur ∈ visited := by simpa using hcont
    obtain ⟨V, hV, hiff⟩ := ih h1
      (fun n hn => h2 n (List.mem_cons_of_mem _ hn))
      (fun n hn hd => by
        rcases h3 n hn hd with hv | hq
        · exact Or.inl hv
        · rcases List.mem_cons.mp hq with rfl | hq'
          · exact Or.inl hcur
          · exact Or.inr hq')
      (fun a ha da hda b hb hdb => by
        rcases h4 a ha da hda b hb hdb with hv | hq
        · exact Or.inl hv
        · rcases List.mem_cons.mp hq with rfl | hq'
          · exact Or.inl hcur
          · exact Or.inr hq')
    exact ⟨V, by rw [pruneLoop, dif_pos hcont]; exact hV, hiff⟩
  | case3 visited cur rest hcont hlook hign ih =>
    intro h1 h2 h3 h4
    obtain ⟨V, hV, hiff⟩ := ih h1
      (fun n hn => h2 n (List.mem_cons_of_mem _ hn))
      (fun n hn hd => by
        rcases h3 n hn hd with hv | hq
        · exact Or.inl hv
        · rcases List.mem_cons.mp hq with rfl | hq'
          · exact absurd hd (by simp [hlook])
          · exact Or.inr hq')
      (fun a ha da hda b hb hdb => by
        rcases h4 a ha da hda b hb hdb with hv | hq
        · exact Or.inl hv
        · rcases List.mem_cons.mp hq with rfl | hq'
          · exact absurd hdb (by simp [hlook])
          · exact Or.inr hq')
    refine ⟨V, ?_, hiff⟩
    rw [pruneLoop, dif_neg hcont]
    split
    · simpa using hV
    · next d' heq => rw [hlook] at heq; cases heq
  | case4 visited cur rest hcont hlook hign =>
    exact absurd rfl hign
  | case5 visited cur rest hcont d hlook ih =>
    intro h1 h2 h3 h4
    have hreach : ReachableName defs S cur := by
      rcases h2 cur (List.mem_cons_self _ _) with hS' | ⟨a, da, ha, hda, hproc⟩
      · exact .start hS' hlook
      · exact .step (h1 a ha) hda hproc hlook
    obtain ⟨V, hV, hiff⟩ := ih
      (fun n hn => by
        rcases List.mem_cons.mp hn with rfl | hn'
        · exact hreach
        · exact h1 n hn')
      (fun n hn => by
        rcases List.mem_append.mp hn with hr | hp
        · rcases h2 n (List.mem_cons_of_mem _ hr) with hS' | ⟨a, da, ha, hda, hproc⟩
          · exact Or.inl hS'
          · exact Or.inr ⟨a, da, List.mem_cons_of_mem _ ha, hda, hproc⟩
        · exact Or.inr ⟨cur, d, List.mem_cons_self _ _, hlook, hp⟩)
      (fun n hn hd => by
        rcases h3 n hn hd with hv | hq
        · exact Or.inl (List.mem_cons_of_mem _ hv)
        · rcases List.mem_cons.mp hq with rfl | hq'
          · exact Or.inl (List.mem_cons_self _ _)
          · exact Or.inr (List.mem_append_left _ hq'))
      (fun a ha da hda b hb hdb => by
        rcases List.mem_cons.mp ha with rfl | ha'
        · have : da = d := by rw [hlook] at hda; exact (Option.some_inj.mp hda).symm
          subst this
          exact Or.inr (List.mem_append_right _ hb)
        · rcases h4 a ha' da hda b hb hdb with hv | hq
          · exact Or.inl (List.mem_cons_of_mem _ hv)
          · rcases List.mem_cons.mp hq with rfl | hq'
            · exact Or.inl (List.mem_cons_self _ _)
            · exact Or.inr (List.mem_append_left _ hq'))
    refine ⟨V, ?_, hiff⟩
    rw [pruneLoop, dif_neg hcont]
    split
    · next heq => rw [hlook] at heq; cases heq
    · next d' heq =>
      rw [hlook] at heq
      cases heq
      exact hV

theorem nameFromURL_A : getNameFromURL "#/definitions/A" = "A" := by decide

theorem nameFromURL_B : getNameFromURL "#/definitions/B" = "B" := by decide

theorem nameFromURL_Address : getNameFromURL "#/definitions/Address" = "Address" := by
  decide

theorem nameFromURL_Missing : getNameFromURL "#/definitions/Missing" = "Missing" := by
  decide

/-- **C1 (counterexample)**: the claim's edge list (ref, properties,
items, additionalItems, not, media, allOf, anyOf, oneOf) omits the
nested `definitions` maps that `processDefinition` also traverses: in
`nestedDefsGraph`, `B` is referenced only from inside `A`'s nested
`definitions` map, tolerant pruning from `{A}` returns `{B, A}`, yet
`B` is not reachable along the claim's listed edges. -/
theorem prune_visits_name_outside_claimed_edges :
    Prune nestedDefsGraph ["A"] true = .ok ["B", "A"] ∧
    "B" ∈ ["B", "A"] ∧
    ¬ ClaimReachable nestedDefsGraph ["A"] "B" := by
  refine ⟨?_, by simp, ?_⟩
  · simp [Prune, pruneLoop, nestedDefsGraph, nestedDefsNode, lookupDef,
      processDefinition, processDefinitionMap, processDefinitionArray,
      refDefinition, typedDefinition, nameFromURL_B]
  · intro hB
    have haux : ∀ n, ClaimReachable nestedDefsGraph ["A"] n → n = "A" := by
      intro n hn
      induction hn with
      | start hn hd => simpa using hn
      | step ha hda hb hdb ih =>
        subst ih
        rw [show lookupDef nestedDefsGraph "A" = some nestedDefsNode from rfl] at hda
        cases hda
        simp [claimListedRefs, claimListedRefsMap, claimListedRefsArray,
          nestedDefsNode] at hb
    exact absurd (haux _ hB) (by decide)

/-- **C1 (amended)**: for every definition graph and entry set, the
visited-name set returned by `Prune` in tolerant mode equals exactly
the set of names transitively reachable from the entry set via the
references collected by `processDefinition` — the claim's listed edges
(ref, properties, items, additionalItems, not, media, allOf, anyOf,
oneOf) plus the nested `definitions`-map edges. -/
theorem prune_tolerant_computes_reachable_set (defs : Definitions) (S : List String) :
    ∃ V, Prune defs S true = .ok V ∧ ∀ n, n ∈ V ↔ ReachableName defs S n := by
  have := pruneLoop_tolerant_spec defs S [] S (by simp)
    (fun n hn => Or.inl hn) (fun n hn _ => Or.inr hn) (by simp)
  simpa [Prune] using this

/-- **C5**: with `Person.address` referencing an `Address` absent from
the graph, strict pruning from `{Person}` aborts with the unknown-type
panic naming `Address`, while tolerant pruning returns `{Person}`
only. -/
theorem prune_strict_aborts_tolerant_skips :
    Prune personDanglingGraph ["Person"] false = .error (.unknownType "Address") ∧
    Prune personDanglingGraph ["Person"] true = .ok ["Person"] := by
  constructor <;>
    simp [Prune, pruneLoop, personDanglingGraph, personDefinition, lookupDef,
      processDefinition, processDefinitionMap, processDefinitionArray,
      refDefinition, typedDefinition, nameFromURL_Address]

/-- **C4**: in the round-trip graph (`Person` with a required string
`name` and an `address` referencing the empty-object `Address`),
pruning from `{Person}` yields exactly `{Person, Address}`, and the
embed-and-restrict step then yields the single `Person` definition
whose `address` property has type `object`, no properties and an empty
`ref`. -/
theorem roundtrip_person_address :
    Prune personGraph ["Person"] true = .ok ["Address", "Person"] ∧
    (∀ n, n ∈ ["Address", "Person"] ↔ (n = "Person" ∨ n = "Address")) ∧
    embedAndRestrict 10 personGraph ["Person"] =
      .ok [("Person", embeddedPersonDefinition)] ∧
    lookupDef embeddedPersonDefinition.properties "address" =
      some (typedDefinition "object") ∧
    (typedDefinition "object").type = "object" ∧
    (typedDefinition "object").properties = [] ∧
    (typedDefinition "object").ref = "" := by
  refine ⟨?_, by intro n; simp [List.mem_cons, or_comm], rfl, rfl, rfl, rfl, rfl⟩
  simp [Prune, pruneLoop, personGraph, personDefinition, addressDefinition, lookupDef,
    processDefinition, processDefinitionMap, processDefinitionArray,
    refDefinition, typedDefinition, nameFromURL_Address]

/-- **C10**: `processDefinition` is oblivious to the
`additionalProperties` child (first conjunct, for every node), so a
definition referenced only through an `additionalProperties` child —
as the extraction step produces for map-valued fields — is dropped by
pruning: in `addPropsOnlyGraph`, `B` is in the graph but pruning from
`{A}` visits only `{A}`. -/
theorem prune_drops_additionalProperties_only_references :
    (∀ (d : Definition) (ap : Option Definition),
      processDefinition (some (d.withAdditionalProperties ap)) =
        processDefinition (some d)) ∧
    Prune addPropsOnlyGraph ["A"] true = .ok ["A"] ∧
    "B" ∈ keysOf addPropsOnlyGraph := by
  refine ⟨?_, ?_, by simp [addPropsOnlyGraph, keysOf, typedDefinition]⟩
  · intro d ap
    cases d
    simp [Definition.withAdditionalProperties, processDefinition]
  · simp [Prune, pruneLoop, addPropsOnlyGraph, lookupDef, processDefinition,
      processDefinitionMap, processDefinitionArray, refDefinition, typedDefinition]

/-- **C3**: flattening a node whose `allOf` is `[X, Y]` with
`X.p : string` and `Y.p : number`, `Y.description = "Y-desc"` produces
a node whose `p` has type `number` and whose description is `Y-desc`:
the last merged member wins on both the property-key collision and the
description.  (Any positive fuel suffices: literal members consume
none.) -/
theorem flatten_last_member_wins (f : Nat) :
    ∃ r, flattenFrom (f + 1) mergeOrderGraph "N" = .ok r ∧
      (lookupDef r.properties "p").map Definition.type = some "number" ∧
      r.description = "Y-desc" :=
  ⟨.mk "" "" "Y-desc" [] [("p", typedDefinition "number")] [] [] [] []
      none none none none none, rfl, rfl, rfl⟩

/-- **C9**: when a node's `allOf` member references a name with no
entry in the map, `recursiveFlatten` hands the `nil` of the unchecked
lookup `schema.Definitions[nameOfRef]` to its recursive call, which
dereferences it (`len(definition.AllOf)`) — a runtime nil-pointer
fault, not an unknown-type diagnostic. -/
theorem flatten_dangling_allOf_nil_fault (f : Nat) (defs : Definitions)
    (A : String) (dA m : Definition)
    (hA : lookupDef defs A = some dA)
    (hall : dA.allOf = [m])
    (href : m.ref ≠ "")
    (htgt : lookupDef defs (getNameFromURL m.ref) = none) :
    flattenFrom (f + 1) defs A = .error .nilDeref := by
  unfold flattenFrom
  rw [hA]
  simp [recursiveFlatten, foldFlattenMembers, hall, href, htgt]

/-- Witness for `flatten_dangling_allOf_nil_fault` on the concrete
one-node graph whose `allOf` references the absent `Missing`. -/
theorem flatten_dangling_allOf_nil_fault_witness :
    flattenFrom 3 danglingAllOfGraph "A" = .error .nilDeref :=
  flatten_dangling_allOf_nil_fault 2 danglingAllOfGraph "A"
    (.mk "" "" "" [] [] [] [refDefinition "#/definitions/Missing"] [] []
      none none none none none)
    (refDefinition "#/definitions/Missing") rfl rfl (by decide) rfl

theorem lookupDef_append_left {l1 l2 : Definitions} {k : String} {v : Definition}
    (h : lookupDef l1 k = some v) : lookupDef (l1 ++ l2) k = some v := by
  induction l1 with
  | nil => simp [lookupDef] at h
  | cons kv rest ih =>
    obtain ⟨k', v'⟩ := kv
    by_cases hk : k' = k
    · rw [lookupDef, if_pos hk] at h
      simp only [List.cons_append, lookupDef, if_pos hk]
      exact h
    · rw [lookupDef, if_neg hk] at h
      simp only [List.cons_append, lookupDef, if_neg hk]
      exact ih h

theorem lookupDef_append_none {l1 l2 : Definitions} {k : String}
    (h : lookupDef l1 k = none) : lookupDef (l1 ++ l2) k = lookupDef l2 k := by
  induction l1 with
  | nil => simp
  | cons kv rest ih =>
    obtain ⟨k', v'⟩ := kv
    by_cases hk : k' = k
    · rw [lookupDef, if_pos hk] at h
      cases h
    · rw [lookupDef, if_neg hk] at h
      simp only [List.cons_append, lookupDef, if_neg hk]
      exact ih h

theorem mergeDefs_keeps_left : ∀ (rhs lhs : Definitions) (k : String) (v : Definition),
    lookupDef lhs k = some v → lookupDef (mergeDefs lhs rhs) k = some v := by
  intro rhs
  induction rhs with
  | nil => intro lhs k v h; simpa [mergeDefs] using h
  | cons kv rest ih =>
    intro lhs k v h
    obtain ⟨k', v'⟩ := kv
    by_cases hs : (lookupDef lhs k').isSome
    · rw [mergeDefs, if_pos hs]
      exact ih lhs k v h
    · rw [mergeDefs, if_neg hs]
      exact ih _ k v (lookupDef_append_left h)

theorem mergeDefs_keys : ∀ (rhs lhs : Definitions) (k : String),
    (lookupDef (mergeDefs lhs rhs) k).isSome ↔
      (lookupDef lhs k).isSome ∨ (lookupDef rhs k).isSome := by
  intro rhs
  induction rhs with
  | nil => intro lhs k; simp [mergeDefs, lookupDef]
  | cons kv rest ih =>
    intro lhs k
    obtain ⟨k', v'⟩ := kv
    by_cases hk : k' = k
    · subst hk
      by_cases hs : (lookupDef lhs k').isSome
      · rw [mergeDefs, if_pos hs, ih]
        simp [lookupDef, hs]
      · rw [mergeDefs, if_neg hs, ih]
        have hnone : lookupDef lhs k' = none := by
          cases hh : lookupDef lhs k' with
          | none => rfl
          | some x => rw [hh] at hs; simp at hs
        rw [lookupDef_append_none hnone]
        simp [lookupDef]
    · by_cases hs : (lookupDef lhs k').isSome
      · rw [mergeDefs, if_pos hs, ih]
        simp [lookupDef, hk]
      · rw [mergeDefs, if_neg hs, ih]
        have hnone : lookupDef lhs k' = none := by
          cases hh : lookupDef lhs k' with
          | none => rfl
          | some x => rw [hh] at hs; simp at hs
        by_cases hl : (lookupDef lhs k).isSome
        · obtain ⟨v, hv⟩ := Option.isSome_iff_exists.mp hl
          rw [lookupDef_append_left hv]
          simp [lookupDef, hk, hl]
        · have hlnone : lookupDef lhs k = none := by
            cases hh : lookupDef lhs k with
            | none => rfl
            | some x => rw [hh] at hl; simp at hl
          rw [lookupDef_append_none hlnone]
          simp [lookupDef, hk, hl]

/-- **C8**: for any two definition maps, the merge keeps the first-seen
(left-hand) entry for every name present in both (first conjunct: a
left binding survives unchanged), the result's key set is the union of
both key sets (second conjunct), and — `mergeDefs` being a total
function into `Definitions`, with no error path — the merge never
aborts on a duplicate name. -/
theorem mergeDefs_first_wins (lhs rhs : Definitions) (k : String) :
    (∀ v, lookupDef lhs k = some v → lookupDef (mergeDefs lhs rhs) k = some v) ∧
    ((lookupDef (mergeDefs lhs rhs) k).isSome ↔
      (lookupDef lhs k).isSome ∨ (lookupDef rhs k).isSome) :=
  ⟨fun v hv => mergeDefs_keeps_left rhs lhs k v hv, mergeDefs_keys rhs lhs k⟩

/-- Witness for `mergeDefs_first_wins`: with `T` declared on both
sides, the left-hand `object` binding survives and the key set is the
union. -/
theorem mergeDefs_first_wins_witness :
    lookupDef (mergeDefs [("T", typedDefinition "object")]
        [("T", typedDefinition "string"), ("U", emptyDefinition)]) "T" =
      some (typedDefinition "object") ∧
    ((lookupDef (mergeDefs [("T", typedDefinition "object")]
        [("T", typedDefinition "string"), ("U", emptyDefinition)]) "U").isSome ↔
      (lookupDef [("T", typedDefinition "object")] "U").isSome ∨
      (lookupDef [("T", typedDefinition "string"), ("U", emptyDefinition)] "U").isSome) :=
  ⟨(mergeDefs_first_wins [("T", typedDefinition "object")]
      [("T", typedDefinition "string"), ("U", emptyDefinition)] "T").1 _ rfl,
   (mergeDefs_first_wins [("T", typedDefinition "object")]
      [("T", typedDefinition "string"), ("U", emptyDefinition)] "U").2⟩

theorem setKey_self : ∀ (defs : Definitions) (n : String) (d : Definition),
    lookupDef defs n = some d → setKey defs n d = defs := by
  intro defs
  induction defs with
  | nil => intro n d h; simp [lookupDef] at h
  | cons kv rest ih =>
    intro n d h
    obtain ⟨k, v⟩ := kv
    by_cases hk : k = n
    · rw [lookupDef, if_pos hk] at h
      cases h
      rw [setKey, if_pos hk, hk]
    · rw [lookupDef, if_neg hk] at h
      rw [setKey, if_neg hk, ih n d h]

theorem lookupDef_isSome_of_mem_keys : ∀ (defs : Definitions) (n : String),
    n ∈ keysOf defs → (lookupDef defs n).isSome := by
  intro defs
  induction defs with
  | nil => intro n hn; simp [keysOf] at hn
  | cons kv rest ih =>
    intro n hn
    obtain ⟨k, v⟩ := kv
    by_cases hk : k = n
    · simp [lookupDef, hk]
    · simp only [keysOf, List.map_cons, List.mem_cons] at hn
      rcases hn with rfl | hn'
      · exact absurd rfl hk
      · simp only [lookupDef, if_neg hk]
        exact ih n hn'

theorem flattenFold_noop : ∀ (l : List String) (f : Nat) (acc : Definitions),
    (∀ n d, lookupDef acc n = some d → d.allOf = []) →
    (∀ n ∈ l, (lookupDef acc n).isSome) →
    (l.foldlM
      (fun acc name => do
        let d ← recursiveFlatten f acc (lookupDef acc name) name []
        pure (setKey acc name d))
      acc : Except FlattenErr Definitions) = .ok acc := by
  intro l
  induction l with
  | nil => intro f acc _ _; rfl
  | cons n rest ih =>
    intro f acc hall hsome
    obtain ⟨d, hd⟩ := Option.isSome_iff_exists.mp (hsome n (List.mem_cons_self _ _))
    have hflat : recursiveFlatten f acc (lookupDef acc n) n [] = .ok d := by
      rw [hd, recursiveFlatten.eq_def]
      simp [hall n d hd]
    rw [List.foldlM_cons, hflat]
    show (rest.foldlM _ (setKey acc n d) : Except FlattenErr Definitions) = _
    rw [setKey_self acc n d hd]
    exact ih f acc hall (fun m hm => hsome m (List.mem_cons_of_mem _ hm))

/-- **C7**: on a graph none of whose definitions has a non-empty
`allOf` list, `flattenAllOf` is a no-op: it succeeds and every name
maps to a structurally unchanged definition (the whole map is returned
unchanged), for every fuel amount. -/
theorem flattenAllOf_noop (f : Nat) (defs : Definitions)
    (h : ∀ n d, lookupDef defs n = some d → d.allOf = []) :
    flattenAllOf f defs = .ok defs := by
  unfold flattenAllOf
  apply flattenFold_noop (keysOf defs) f defs h
  intro n hn
  exact lookupDef_isSome_of_mem_keys defs n hn

/-- Witness for `flattenAllOf_noop` on a one-node allOf-free graph. -/
theorem flattenAllOf_noop_witness :
    flattenAllOf 0 [("T", typedDefinition "object")] =
      .ok [("T", typedDefinition "object")] :=
  flattenAllOf_noop 0 _ (by
    intro n d h
    simp only [lookupDef] at h
    split at h
    · cases h; rfl
    · cases h)

theorem foldFlattenMembers_ok_members {fl : Definition → Except FlattenErr Definition} :
    ∀ (l : List Definition) (agg r : Definition),
      foldFlattenMembers fl l agg = .ok r →
      ∀ m ∈ l, m.ref ≠ "" → ∃ r2, fl m = .ok r2 := by
  intro l
  induction l with
  | nil => intro agg r _ m hm; cases hm
  | cons m0 rest ih =>
    intro agg r hfold m hm href
    rw [foldFlattenMembers] at hfold
    by_cases h0 : m0.ref = ""
    · rw [if_pos h0] at hfold
      rcases List.mem_cons.mp hm with rfl | hm'
      · exact absurd h0 href
      · exact ih _ r hfold m hm' href
    · rw [if_neg h0] at hfold
      cases hfl : fl m0 with
      | error e => rw [hfl] at hfold; cases hfold
      | ok nd =>
        rw [hfl] at hfold
        rcases List.mem_cons.mp hm with rfl | hm'
        · exact ⟨nd, hfl⟩
        · exact ih _ r hfold m hm' href

theorem list_not_isEmpty_of_mem {m : Definition} {l : List Definition} (h : m ∈ l) :
    l.isEmpty = false := by
  cases l with
  | nil => cases h
  | cons a t => rfl

theorem flatten_cycle_pair_no_success (defs : Definitions) (A B : String)
    (dA dB mB mA : Definition)
    (hA : lookupDef defs A = some dA) (hB : lookupDef defs B = some dB)
    (hmB : mB ∈ dA.allOf) (hmBr : mB.ref ≠ "") (hmBn : getNameFromURL mB.ref = B)
    (hmA : mA ∈ dB.allOf) (hmAr : mA.ref ≠ "") (hmAn : getNameFromURL mA.ref = A) :
    ∀ f r, flattenFrom f defs A ≠ .ok r := by
  intro f r hok
  unfold flattenFrom at hok
  rw [hA, recursiveFlatten.eq_def] at hok
  simp only [list_not_isEmpty_of_mem hmB, Bool.false_eq_true, if_false,
    List.contains_nil, if_false] at hok
  match f, hok with
  | Nat.succ f1, hok =>
  obtain ⟨r2, hr2⟩ := foldFlattenMembers_ok_members dA.allOf _ _ hok mB hmB hmBr
  rw [hmBn, hB, recursiveFlatten.eq_def] at hr2
  simp only [list_not_isEmpty_of_mem hmA, Bool.false_eq_true, if_false] at hr2
  by_cases hBA : ([A].contains B) = true
  · rw [if_pos hBA] at hr2; cases hr2
  · rw [if_neg hBA] at hr2
    match f1, hr2 with
    | Nat.succ f2, hr2 =>
    obtain ⟨r3, hr3⟩ := foldFlattenMembers_ok_members dB.allOf _ _ hr2 mA hmA hmAr
    rw [hmAn, hA, recursiveFlatten.eq_def] at hr3
    simp only [list_not_isEmpty_of_mem hmB, Bool.false_eq_true, if_false] at hr3
    have : ([B, A].contains A) = true := by simp
    rw [if_pos this] at hr3
    cases hr3

theorem lookupDef_mem {defs : Definitions} {n : String} {d : Definition}
    (h : lookupDef defs n = some d) : (n, d) ∈ defs := by
  induction defs with
  | nil => rw [lookupDef] at h; cases h
  | cons kv rest ih =>
    obtain ⟨k, v⟩ := kv
    by_cases hk : k = n
    · rw [lookupDef, if_pos hk] at h
      cases h
      subst hk
      exact List.mem_cons_self _ _
    · rw [lookupDef, if_neg hk] at h
      exact List.mem_cons_of_mem _ (ih h)

theorem foldFlattenMembers_ne_error {fl : Definition → Except FlattenErr Definition}
    {e : FlattenErr} :
    ∀ (l : List Definition), (∀ m ∈ l, m.ref ≠ "" → fl m ≠ .error e) →
      ∀ agg, foldFlattenMembers fl l agg ≠ .error e := by
  intro l
  induction l with
  | nil => intro _ agg h; rw [foldFlattenMembers] at h; cases h
  | cons m0 rest ih =>
    intro hmem agg h
    rw [foldFlattenMembers] at h
    by_cases h0 : m0.ref = ""
    · rw [if_pos h0] at h
      exact ih (fun m hm => hmem m (List.mem_cons_of_mem _ hm)) _ h
    · rw [if_neg h0] at h
      cases hfl : fl m0 with
      | error e2 =>
        rw [hfl] at h
        cases h
        exact hmem m0 (List.mem_cons_self _ _) h0 hfl
      | ok nd =>
        rw [hfl] at h
        exact ih (fun m hm => hmem m (List.mem_cons_of_mem _ hm)) _ h

theorem recursiveFlatten_succ_unfold (f : Nat) (defs : Definitions) (d : Definition)
    (name : String) (visited : List String)
    (hemp : d.allOf.isEmpty = false) (hvis : visited.contains name = false) :
    recursiveFlatten (f + 1) defs (some d) name visited =
      foldFlattenMembers
        (fun m => recursiveFlatten f defs (lookupDef defs (getNameFromURL m.ref))
          (getNameFromURL m.ref) (name :: visited))
        d.allOf emptyDefinition := by
  have hv : name ∉ visited := by simpa using hvis
  rw [recursiveFlatten.eq_def]
  simp [hemp, hv]

theorem flatten_closed_classified (defs : Definitions) (hcl : allOfRefsResolve defs) :
    ∀ f name visited, (lookupDef defs name).isSome →
      unvisitedCount defs visited ≤ f →
      recursiveFlatten f defs (lookupDef defs name) name visited ≠ .error .nilDeref ∧
      recursiveFlatten f defs (lookupDef defs name) name visited ≠ .error .outOfFuel := by
  intro f
  induction f with
  | zero =>
    intro name visited hsome hfuel
    obtain ⟨d, hd⟩ := Option.isSome_iff_exists.mp hsome
    have hmem : name ∈ visited := by
      by_contra hnc
      have hnc' : ¬ visited.contains name = true := by simpa using hnc
      have := unvisitedCount_lt hd hnc'
      omega
    constructor <;> intro h <;> rw [hd, recursiveFlatten.eq_def] at h <;>
      by_cases hemp : d.allOf.isEmpty = true <;> simp [hemp, hmem] at h
  | succ f1 ih =>
    intro name visited hsome hfuel
    obtain ⟨d, hd⟩ := Option.isSome_iff_exists.mp hsome
    by_cases hemp : d.allOf.isEmpty = true
    · constructor <;> intro h <;> rw [hd, recursiveFlatten.eq_def] at h <;>
        simp [hemp] at h
    · by_cases hvis : visited.contains name = true
      · have hm : name ∈ visited := by simpa using hvis
        constructor <;> intro h <;> rw [hd, recursiveFlatten.eq_def] at h <;>
          simp [hemp, hm] at h
      · have hemp' : d.allOf.isEmpty = false := by simpa using hemp
        have hvis' : visited.contains name = false := by simpa using hvis
        have harg : ∀ m ∈ d.allOf, m.ref ≠ "" →
            (lookupDef defs (getNameFromURL m.ref)).isSome = true := by
          intro m hm href
          exact hcl (name, d) (lookupDef_mem hd) m hm href
        have hfuel1 : unvisitedCount defs (name :: visited) ≤ f1 := by
          have := unvisitedCount_lt hd hvis
          omega
        rw [hd, recursiveFlatten_succ_unfold f1 defs d name visited hemp' hvis']
        constructor
        · apply foldFlattenMembers_ne_error
          intro m hm href
          exact (ih (getNameFromURL m.ref) (name :: visited) (harg m hm href) hfuel1).1
        · apply foldFlattenMembers_ne_error
          intro m hm href
          exact (ih (getNameFromURL m.ref) (name :: visited) (harg m hm href) hfuel1).2

/-- **C2 (amended)**: for any graph with an `allOf` two-cycle (a node
`A` with an `allOf` member referencing `B`, and `B` with an `allOf`
member referencing `A`), flattening started from `A` or from `B` never
returns a result, for every fuel amount (no partial result); and
whenever every `allOf` reference in the graph resolves, with fuel at
least the number of graph keys the abort is specifically the
cyclic-composition panic, from both entry points. -/
theorem flatten_allOf_cycle_aborts (defs : Definitions) (A B : String)
    (dA dB mB mA : Definition)
    (hA : lookupDef defs A = some dA) (hB : lookupDef defs B = some dB)
    (hmB : mB ∈ dA.allOf) (hmBr : mB.ref ≠ "") (hmBn : getNameFromURL mB.ref = B)
    (hmA : mA ∈ dB.allOf) (hmAr : mA.ref ≠ "") (hmAn : getNameFromURL mA.ref = A) :
    (∀ f r, flattenFrom f defs A ≠ .ok r) ∧
    (∀ f r, flattenFrom f defs B ≠ .ok r) ∧
    (allOfRefsResolve defs →
      ∀ f, unvisitedCount defs [] ≤ f →
        flattenFrom f defs A = .error .cycleDetected ∧
        flattenFrom f defs B = .error .cycleDetected) := by
  have hnA := flatten_cycle_pair_no_success defs A B dA dB mB mA hA hB
    hmB hmBr hmBn hmA hmAr hmAn
  have hnB := flatten_cycle_pair_no_success defs B A dB dA mA mB hB hA
    hmA hmAr hmAn hmB hmBr hmBn
  refine ⟨hnA, hnB, fun hcl f hf => ⟨?_, ?_⟩⟩
  · have hclass := flatten_closed_classified defs hcl f A [] (by simp [hA]) hf
    cases hres : flattenFrom f defs A with
    | ok r => exact absurd hres (hnA f r)
    | error e =>
      cases e with
      | cycleDetected => rfl
      | nilDeref =>
        unfold flattenFrom at hres
        exact absurd hres hclass.1
      | outOfFuel =>
        unfold flattenFrom at hres
        exact absurd hres hclass.2
  · have hclass := flatten_closed_classified defs hcl f B [] (by simp [hB]) hf
    cases hres : flattenFrom f defs B with
    | ok r => exact absurd hres (hnB f r)
    | error e =>
      cases e with
      | cycleDetected => rfl
      | nilDeref =>
        unfold flattenFrom at hres
        exact absurd hres hclass.1
      | outOfFuel =>
        unfold flattenFrom at hres
        exact absurd hres hclass.2

/-- **C2 (counterexample)**: `danglingCycleGraph` contains the exact
cycle shape of the claim (`A` has an `allOf` member referencing `B`,
`B` has one referencing `A`), yet flattening from either entry point
aborts with the nil-pointer fault — `A`'s member list hits the
unresolvable `Missing` before the cycle — not with the
cyclic-composition diagnostic the claim promises. -/
theorem flatten_cycle_wrong_diagnostic :
    (∃ dA, lookupDef danglingCycleGraph "A" = some dA ∧
      refDefinition "#/definitions/B" ∈ dA.allOf ∧
      (refDefinition "#/definitions/B").ref ≠ "" ∧
      getNameFromURL (refDefinition "#/definitions/B").ref = "B") ∧
    (∃ dB, lookupDef danglingCycleGraph "B" = some dB ∧
      refDefinition "#/definitions/A" ∈ dB.allOf ∧
      (refDefinition "#/definitions/A").ref ≠ "" ∧
      getNameFromURL (refDefinition "#/definitions/A").ref = "A") ∧
    flattenFrom 5 danglingCycleGraph "A" = .error .nilDeref ∧
    flattenFrom 5 danglingCycleGraph "B" = .error .nilDeref ∧
    FlattenErr.nilDeref ≠ FlattenErr.cycleDetected := by
  refine ⟨⟨_, rfl, ?_, by decide, nameFromURL_B⟩, ⟨_, rfl, ?_, by decide, nameFromURL_A⟩,
    rfl, rfl, by decide⟩
  · exact List.mem_cons_of_mem _ (List.mem_cons_self _ _)
  · exact List.mem_cons_self _ _


instance allOfRefsResolveDecidable (defs : Definitions) :
    Decidable (allOfRefsResolve defs) := by
  unfold allOfRefsResolve
  infer_instance


/-- Witness for `flatten_allOf_cycle_aborts` on the pure two-cycle
`cyclicPairGraph` with fuel 3 ≥ 2 keys. -/
theorem flatten_allOf_cycle_aborts_witness :
    flattenFrom 3 cyclicPairGraph "A" = .error .cycleDetected ∧
    flattenFrom 3 cyclicPairGraph "B" = .error .cycleDetected :=
  (flatten_allOf_cycle_aborts cyclicPairGraph "A" "B"
    (.mk "" "" "" [] [] [] [refDefinition "#/definitions/B"] [] [] none none none none none)
    (.mk "" "" "" [] [] [] [refDefinition "#/definitions/A"] [] [] none none none none none)
    (refDefinition "#/definitions/B") (refDefinition "#/definitions/A")
    rfl rfl (List.mem_cons_self _ _) (by decide) nameFromURL_B
    (List.mem_cons_self _ _) (by decide) nameFromURL_A).2.2
    (by decide) 3 (by decide)


theorem trimB : trimDefLink "#/definitions/B" = "B" := by decide
theorem trimA : trimDefLink "#/definitions/A" = "A" := by decide

example (f : Nat)
    (hA : embedDefinition f (refDefinition "#/definitions/A") mutualRefGraph = .error .outOfFuel) :
    embedDefinition (f + 1) (refDefinition "#/definitions/B") mutualRefGraph = .error .outOfFuel := by
  simp only [refDefinition, mutualRefGraph] at hA
  simp [embedDefinition, refDefinition, trimB, mutualRefGraph, lookupDef,
    List.mapM, List.mapM.loop, hA, Except.map, Definition.ref, Definition.type,
    Definition.properties]

theorem embed_refnodes_exhaust : ∀ f,
    embedDefinition f
      (Definition.mk "#/definitions/B" "" "" [] [] [] [] [] [] none none none none none)
      mutualRefGraph = .error .outOfFuel ∧
    embedDefinition f
      (Definition.mk "#/definitions/A" "" "" [] [] [] [] [] [] none none none none none)
      mutualRefGraph = .error .outOfFuel := by
  intro f
  induction f with
  | zero => exact ⟨rfl, rfl⟩
  | succ f ih =>
    obtain ⟨ihB, ihA⟩ := ih
    simp only [mutualRefGraph, refDefinition] at ihA ihB
    constructor
    · simp [embedDefinition, trimB, mutualRefGraph, refDefinition, lookupDef,
        List.mapM, List.mapM.loop, ihA, Except.map, Definition.ref, Definition.type,
        Definition.properties]
    · simp [embedDefinition, trimA, mutualRefGraph, refDefinition, lookupDef,
        List.mapM, List.mapM.loop, ihB, Except.map, Definition.ref, Definition.type,
        Definition.properties]

/-- **C6**: on the pruned graph `mutualRefGraph`, whose two
definitions reference each other only through `properties` (no `allOf`
involved), the reference embedder's recursive walk — which tracks no
visiting set — never terminates: started from entry `A` it exhausts
every fuel amount. -/
theorem embed_mutual_property_cycle_diverges (f : Nat) :
    embedSchema f mutualRefGraph ["A"] = .error .outOfFuel := by
  cases f with
  | zero => rfl
  | succ f =>
    have h := (embed_refnodes_exhaust f).1
    simp only [mutualRefGraph, refDefinition] at h
    simp [embedSchema, embedDefinition, mutualRefGraph, refDefinition, lookupDef,
      List.mapM, List.mapM.loop, h, Except.map, Definition.ref, Definition.type,
      Definition.properties]
